import Mathlib

/-!
Verification of the SAST_RPA publisher (`main_publisher.py`).

The Python source is shallowly embedded below.  Raw document text is
modelled as `List Char`; the `re` patterns of the source are modelled by
explicit scanners with the exact leftmost, non-overlapping, lazy-capture
semantics of `re.findall` / `re.search` on patterns of the shape
`<tag>(.*?)</tag>` (with or without `re.DOTALL`).  File writes are modelled
as an explicit store `String → Option String`.  The fresh UUID drawn by
`uuid.uuid4()` for every SBOM component is modelled as an explicit supply
`Nat → String` (the k-th generated uuid string).
-/

/-- Whitespace set of Python's `str.strip()` restricted to ASCII, which is
what can occur in the documents at hand: space, tab, newline, carriage
return, vertical tab, form feed. -/
def isPySpace (c : Char) : Bool :=
  c == ' ' || c == '\t' || c == '\n' || c == '\r' || c == '\x0b' || c == '\x0c'

/-- Model of Python `str.strip()`: drop leading and trailing whitespace. -/
def pyStrip (l : List Char) : List Char :=
  ((l.dropWhile isPySpace).reverse.dropWhile isPySpace).reverse

/-- Model of Python `str.lower()` on one character (ASCII range, which is
the only range that can reach the lowercase keys of the extension map). -/
def pyLowerChar (c : Char) : Char :=
  if 'A' ≤ c && c ≤ 'Z' then Char.ofNat (c.toNat + 32) else c

/-- Model of Python `str.lower()` on a string. -/
def pyLowerStr (s : String) : String :=
  String.mk (s.data.map pyLowerChar)

/-- Split a character list at the first occurrence of `pat`: returns the
text before the occurrence and the text after it.  `none` when `pat` does
not occur.  This is the primitive behind the lazy `(.*?)` capture of the
source's regular expressions. -/
def splitAtFirst (pat : List Char) : List Char → Option (List Char × List Char)
  | [] => none
  | c :: t =>
    if pat.isPrefixOf (c :: t) then some ([], (c :: t).drop pat.length)
    else
      match splitAtFirst pat t with
      | some (a, b) => some (c :: a, b)
      | none => none

/-- Fuelled scanner behind `findallBetween`.  With a non-empty opening
literal every recursive call strictly shortens the scanned list, so fuel
equal to the length of the list is never exhausted and the `0` branch is
unreachable; the fuel only makes the recursion structural. -/
def findallBetweenF (ot ct : List Char) : Nat → List Char → List (List Char)
  | 0, _ => []
  | _, [] => []
  | fuel + 1, c :: t =>
    if ot.isPrefixOf (c :: t) then
      match splitAtFirst ct ((c :: t).drop ot.length) with
      | some (cap, rest) => cap :: findallBetweenF ot ct fuel rest
      | none => findallBetweenF ot ct fuel t
    else findallBetweenF ot ct fuel t

/-- Model of `re.findall(r'OPEN(.*?)CLOSE', text, re.DOTALL)` where `ot`
and `ct` are the literal opening and closing delimiters: scan left to
right; at each position where the opening literal matches and the closing
literal occurs later, capture the (lazy, hence shortest) text in between
and resume after the closing literal; otherwise advance one character. -/
def findallBetween (ot ct l : List Char) : List (List Char) :=
  findallBetweenF ot ct l.length l

/-- Model of `re.search(r'OPEN(.*?)CLOSE', text)` WITHOUT `re.DOTALL`:
the lazy capture may not contain a newline, so a position where the text
up to the nearest closing literal contains `'\n'` fails and scanning
resumes one character further.  Returns the first successful capture. -/
def searchBetween (ot ct : List Char) : List Char → Option (List Char)
  | [] => none
  | c :: t =>
    if ot.isPrefixOf (c :: t) then
      match splitAtFirst ct ((c :: t).drop ot.length) with
      | some (cap, _) => if cap.contains '\n' then searchBetween ot ct t else some cap
      | none => searchBetween ot ct t
    else searchBetween ot ct t

/-- Fuelled scanner behind `findallTagBetween`; the fuel plays the same
role as in `findallBetweenF`. -/
def findallTagBetweenF (ot ct : List Char) : Nat → List Char → List (List Char)
  | 0, _ => []
  | _, [] => []
  | fuel + 1, c :: t =>
    if ot.isPrefixOf (c :: t) then
      match splitAtFirst ['>'] ((c :: t).drop ot.length) with
      | some (_, r3) =>
        match splitAtFirst ct r3 with
        | some (cap, rest) => cap :: findallTagBetweenF ot ct fuel rest
        | none => findallTagBetweenF ot ct fuel t
      | none => findallTagBetweenF ot ct fuel t
    else findallTagBetweenF ot ct fuel t

/-- Model of `re.findall(r'OPEN[^>]*>(.*?)CLOSE', text, re.DOTALL)`: after
the opening literal, an attribute run of non-`'>'` characters up to the
next `'>'` is consumed, then the lazy capture extends to the nearest
closing literal. -/
def findallTagBetween (ot ct l : List Char) : List (List Char) :=
  findallTagBetweenF ot ct l.length l

/-! ## Code extractor (`extract_code_from_robot_release`, lines 8-69)

A parsed stage element is modelled by its `name` attribute (absent when the
XML element carries none) and the serialized sub-tree text produced by
`ET.tostring(stage, encoding='unicode')`, which is all the source ever
reads from a stage.  The parse step `ET.parse` of line 20 is modelled as an
`Except` value handed to `extract_code_from_robot_release`: the source has
no exception handler, so a parse error propagates unchanged. -/

/-- Stage name lookup, `stage.get('name', 'UnnamedStage')` (line 37). -/
def stage_name (attr : Option String) : String :=
  attr.getD "UnnamedStage"

/-- Code-block matches of one stage,
`re.findall(r'<ns0:code[^>]*>(.*?)</ns0:code>', ET.tostring(stage), re.DOTALL)`
(lines 40-44). -/
def code_blocks (ser : List Char) : List (List Char) :=
  findallTagBetween "<ns0:code".toList "</ns0:code>".toList ser

/-- Language search of one stage,
`re.search(r'<ns0:language>(.*?)</ns0:language>', ET.tostring(stage))`
(lines 47-50); note the absence of `re.DOTALL` here. -/
def searchLang (ser : List Char) : Option (List Char) :=
  searchBetween "<ns0:language>".toList "</ns0:language>".toList ser

/-- Language of a stage, `language_match.group(1) if language_match else
'unknown'` (line 51). -/
def language_of (ser : List Char) : String :=
  match searchLang ser with
  | some cap => String.mk cap
  | none => "unknown"

/-- The `extension_map` dictionary (lines 55-59). -/
def extension_map : List (String × String) :=
  [("csharp", "cs"), ("powershell", "ps1"), ("visualbasic", "vb")]

/-- Extension lookup, `extension_map.get(language.lower(), 'txt')`
(line 60). -/
def extension_map_get (language : String) : String :=
  (List.lookup (pyLowerStr language) extension_map).getD "txt"

/-- File extension chosen for one stage (lines 47-60 combined). -/
def file_extension (ser : List Char) : String :=
  extension_map_get (language_of ser)

/-- Files written for one stage: the loop of lines 63-69,
`for idx, code in enumerate(code_blocks, start=1)` writing
`f"{stage_name}_{idx}.{file_extension}"` with content `code.strip()`.
Each file is the pair (file name, written content). -/
def stage_files (attr : Option String) (ser : List Char) : List (String × String) :=
  (List.enumFrom 1 (code_blocks ser)).map
    (fun p => (stage_name attr ++ "_" ++ Nat.repr p.1 ++ "." ++ file_extension ser,
               String.mk (pyStrip p.2)))

/-- A parsed stage: its optional `name` attribute and its serialized
sub-tree text. -/
def Stage : Type := Option String × List Char

/-- All file writes of one run, in program order: the nested loops of
lines 27-36 yield the stages in document order, and each stage contributes
its files (lines 63-69). -/
def code_writes (stages : List Stage) : List (String × String) :=
  (stages.map (fun s => stage_files s.1 s.2)).flatten

/-- Model of `extract_code_from_robot_release` (lines 8-69) after the
parse step: a parse failure of `ET.parse` (line 20) propagates to the
caller because the function installs no handler; a successful parse yields
the list of file writes performed. -/
def extract_code_from_robot_release (parsed : Except String (List Stage)) :
    Except String (List (String × String)) :=
  match parsed with
  | Except.error e => Except.error e
  | Except.ok stages => Except.ok (code_writes stages)

/-! ## File-store model

Writing with `open(path, 'w')` replaces the full content of the named
file; a run is the left-to-right replay of its writes. -/

/-- Replace the content of file `n` with `c` in store `fs`. -/
def updateFs (fs : String → Option String) (n c : String) : String → Option String :=
  fun m => if m = n then some c else fs m

/-- Replay a list of writes over a store, left to right. -/
def applyWrites (fs : String → Option String) :
    List (String × String) → (String → Option String)
  | [] => fs
  | w :: ws => applyWrites (updateFs fs w.1 w.2) ws

/-- Content of the last write to file `n` in a write list, if any. -/
def lastWrite (n : String) : List (String × String) → Option String
  | [] => none
  | w :: ws =>
    match lastWrite n ws with
    | some c => some c
    | none => if n = w.1 then some w.2 else none

/-! ## Dependency collector (`extract_text_between_tags`, lines 72-89) -/

/-- Model of `extract_text_between_tags` (lines 72-89) applied to the raw
text of the input file: reference matches first
(`re.findall(r'<reference>(.*?)</reference>', content, re.DOTALL)`),
then import matches, each paired with its tag kind and stripped. -/
def extract_text_between_tags (content : List Char) : List (String × String) :=
  (findallBetween "<reference>".toList "</reference>".toList content).map
      (fun m => ("reference", String.mk (pyStrip m)))
    ++ (findallBetween "<import>".toList "</import>".toList content).map
      (fun m => ("import", String.mk (pyStrip m)))

/-! ## SBOM assembler (`generate_sbom`, lines 92-122) -/

/-- Supplier record of a component (line 112). -/
structure Supplier where
  name : String
deriving DecidableEq

/-- One SBOM component (lines 105-113); `bomRef` is the `'bom-ref'` key. -/
structure Component where
  bomRef : String
  name : String
  version : String
  purl : String
  hashes : List String
  licenses : List String
  supplier : Supplier
deriving DecidableEq

/-- The SBOM document (lines 116-121). -/
structure SBOM where
  bomFormat : String
  specVersion : String
  version : Nat
  components : List Component
deriving DecidableEq

/-- The component-building loop of lines 99-114: `seen` is the
`unique_libraries` set, `k` counts the `uuid.uuid4()` draws performed so
far, so the next component receives `uuids k`. -/
def sbomComponents (uuids : Nat → String) :
    List (String × String) → List String → Nat → List Component
  | [], _, _ => []
  | (_, lib_name) :: rest, seen, k =>
    if lib_name ∈ seen then sbomComponents uuids rest seen k
    else
      { bomRef := uuids k
        name := lib_name
        version := "unknown"
        purl := "pkg:generic/" ++ lib_name ++ "@unknown"
        hashes := []
        licenses := []
        supplier := ⟨"unknown"⟩ } :: sbomComponents uuids rest (lib_name :: seen) (k + 1)

/-- Model of `generate_sbom` (lines 92-122); the uuid supply `uuids`
models the successive results of `str(uuid.uuid4())`. -/
def generate_sbom (uuids : Nat → String) (libraries : List (String × String)) : SBOM :=
  { bomFormat := "CycloneDX"
    specVersion := "1.4"
    version := 1
    components := sbomComponents uuids libraries [] 0 }

/-- Erase the generated identifier of a component. -/
def eraseBomRef (c : Component) : Component :=
  { c with bomRef := "" }

/-- Erase all generated identifiers of an SBOM. -/
def stripBomRefs (s : SBOM) : SBOM :=
  { s with components := s.components.map eraseBomRef }

/-! ## Specification-side definitions -/

/-- First-seen deduplication, stated independently of the source's
seen-set loop: keep the head and deduplicate the tail with the head
removed, so the result lists each distinct element once, in order of
first occurrence. -/
def firstSeenDedup : List String → List String
  | [] => []
  | x :: xs => x :: firstSeenDedup (xs.filter (fun y => !decide (y = x)))
termination_by l => l.length
decreasing_by
  have := List.length_filter_le (fun y => !decide (y = x)) xs
  simp only [List.length_cons]
  omega

/-- First-seen deduplication relative to an already-seen set. -/
def firstSeenDedupFrom (seen : List String) : List String → List String
  | [] => []
  | x :: xs =>
    if x ∈ seen then firstSeenDedupFrom seen xs
    else x :: firstSeenDedupFrom (x :: seen) xs

/-- Number of occurrences of the pattern `pat` in a list (all start
positions counted). -/
def countOccur (pat : List Char) : List Char → Nat
  | [] => 0
  | c :: t => (if pat.isPrefixOf (c :: t) then 1 else 0) + countOccur pat t

/-! ## Helper lemmas -/

theorem enumFrom_getElem? {α : Type} : ∀ (j : Nat) (l : List α) (i : Nat),
    (List.enumFrom j l)[i]? = l[i]?.map (fun a => (j + i, a)) := by
  intro j l
  induction l generalizing j with
  | nil => intro i; simp [List.enumFrom]
  | cons x xs ih =>
    intro i
    cases i with
    | zero => simp [List.enumFrom]
    | succ n =>
      have harith : j + 1 + n = j + (n + 1) := by omega
      simp only [List.enumFrom, List.getElem?_cons_succ, ih (j + 1) n, harith]

theorem applyWrites_lookup : ∀ (ws : List (String × String)) (fs : String → Option String)
    (n : String), applyWrites fs ws n =
      match lastWrite n ws with
      | some c => some c
      | none => fs n := by
  intro ws
  induction ws with
  | nil => intro fs n; rfl
  | cons w ws ih =>
    intro fs n
    simp only [applyWrites, lastWrite]
    rw [ih]
    cases h : lastWrite n ws with
    | some c => rfl
    | none => by_cases hn : n = w.1 <;> simp [updateFs, hn]

theorem filter_mem_cons (x : String) (seen : List String) (xs : List String) :
    xs.filter (fun y => !decide (y ∈ x :: seen))
      = (xs.filter (fun y => !decide (y ∈ seen))).filter (fun y => !decide (y = x)) := by
  rw [List.filter_filter]
  apply List.filter_congr
  intro a _
  by_cases h1 : a = x <;> by_cases h2 : a ∈ seen <;> simp [List.mem_cons, h1, h2]

theorem firstSeenDedupFrom_eq : ∀ (l : List String) (seen : List String),
    firstSeenDedupFrom seen l = firstSeenDedup (l.filter (fun y => !decide (y ∈ seen))) := by
  intro l
  induction l with
  | nil => intro seen; simp [firstSeenDedupFrom, firstSeenDedup]
  | cons x xs ih =>
    intro seen
    by_cases hx : x ∈ seen
    · have hf : (x :: xs).filter (fun y => !decide (y ∈ seen))
          = xs.filter (fun y => !decide (y ∈ seen)) := by
        simp [List.filter_cons, hx]
      simp only [firstSeenDedupFrom, if_pos hx, hf]
      exact ih seen
    · have hf : (x :: xs).filter (fun y => !decide (y ∈ seen))
          = x :: xs.filter (fun y => !decide (y ∈ seen)) := by
        simp [List.filter_cons, hx]
      simp only [firstSeenDedupFrom, if_neg hx, hf]
      rw [ih (x :: seen), filter_mem_cons x seen xs]
      conv_rhs => rw [firstSeenDedup]

theorem sbomComponents_names (uuids : Nat → String) :
    ∀ (libs : List (String × String)) (seen : List String) (k : Nat),
      (sbomComponents uuids libs seen k).map Component.name
        = firstSeenDedupFrom seen (libs.map Prod.snd) := by
  intro libs
  induction libs with
  | nil => intro seen k; rfl
  | cons p rest ih =>
    intro seen k
    obtain ⟨ty, nm⟩ := p
    simp only [sbomComponents, List.map_cons, firstSeenDedupFrom]
    by_cases hm : nm ∈ seen
    · rw [if_pos hm, if_pos hm]; exact ih seen k
    · rw [if_neg hm, if_neg hm]
      simp only [List.map_cons]
      rw [ih (nm :: seen) (k + 1)]

theorem mem_of_mem_firstSeenDedup : ∀ (n : Nat) (l : List String), l.length ≤ n →
    ∀ y ∈ firstSeenDedup l, y ∈ l := by
  intro n
  induction n with
  | zero =>
    intro l hl y hy
    have : l = [] := List.length_eq_zero.mp (Nat.le_zero.mp hl)
    subst this
    simp [firstSeenDedup] at hy
  | succ n ih =>
    intro l hl y hy
    cases l with
    | nil => simp [firstSeenDedup] at hy
    | cons x xs =>
      simp only [firstSeenDedup] at hy
      rcases List.mem_cons.mp hy with rfl | hy'
      · exact List.mem_cons_self _ _
      · have hlen : (xs.filter (fun y => !decide (y = x))).length ≤ n := by
          have := List.length_filter_le (fun y => !decide (y = x)) xs
          simp only [List.length_cons] at hl
          omega
        exact List.mem_cons_of_mem _ (List.mem_of_mem_filter (ih _ hlen y hy'))

theorem nodup_firstSeenDedup : ∀ (n : Nat) (l : List String), l.length ≤ n →
    (firstSeenDedup l).Nodup := by
  intro n
  induction n with
  | zero =>
    intro l hl
    have : l = [] := List.length_eq_zero.mp (Nat.le_zero.mp hl)
    subst this
    simp [firstSeenDedup]
  | succ n ih =>
    intro l hl
    cases l with
    | nil => simp [firstSeenDedup]
    | cons x xs =>
      have hlen : (xs.filter (fun y => !decide (y = x))).length ≤ n := by
        have := List.length_filter_le (fun y => !decide (y = x)) xs
        simp only [List.length_cons] at hl
        omega
      simp only [firstSeenDedup]
      refine List.nodup_cons.mpr ⟨?_, ih _ hlen⟩
      intro hx
      have := List.of_mem_filter (mem_of_mem_firstSeenDedup n _ hlen x hx)
      simp at this

theorem length_firstSeenDedup : ∀ (n : Nat) (l : List String), l.length ≤ n →
    (firstSeenDedup l).length = l.toFinset.card := by
  intro n
  induction n with
  | zero =>
    intro l hl
    have : l = [] := List.length_eq_zero.mp (Nat.le_zero.mp hl)
    subst this
    simp [firstSeenDedup]
  | succ n ih =>
    intro l hl
    cases l with
    | nil => simp [firstSeenDedup]
    | cons x xs =>
      have hlen : (xs.filter (fun y => !decide (y = x))).length ≤ n := by
        have := List.length_filter_le (fun y => !decide (y = x)) xs
        simp only [List.length_cons] at hl
        omega
      have hfin : (xs.filter (fun y => !decide (y = x))).toFinset = xs.toFinset.erase x := by
        ext a
        simp only [List.mem_toFinset, List.mem_filter, Finset.mem_erase,
          Bool.not_eq_eq_eq_not, Bool.not_true, decide_eq_false_iff_not]
        tauto
      have hins : insert x xs.toFinset = insert x (xs.toFinset.erase x) := by
        ext a
        simp only [Finset.mem_insert, Finset.mem_erase]
        tauto
      simp only [firstSeenDedup, List.length_cons, List.toFinset_cons, ih _ hlen, hfin,
        hins, Finset.card_insert_of_not_mem (Finset.not_mem_erase x xs.toFinset)]

/-! ## Claim theorems -/

/-- C1: the SBOM component list carries exactly one component per distinct
library name, ignoring the tag kind, ordered by first occurrence of each
name in the input sequence, and the component count equals the number of
distinct names. -/
theorem spec_c1 (uuids : Nat → String) (libs : List (String × String)) :
    (generate_sbom uuids libs).components.map Component.name
        = firstSeenDedup (libs.map Prod.snd) ∧
    ((generate_sbom uuids libs).components.map Component.name).Nodup ∧
    (generate_sbom uuids libs).components.length = (libs.map Prod.snd).toFinset.card := by
  have hnames : (generate_sbom uuids libs).components.map Component.name
      = firstSeenDedup (libs.map Prod.snd) := by
    have h1 := sbomComponents_names uuids libs [] 0
    rw [firstSeenDedupFrom_eq] at h1
    simpa using h1
  refine ⟨hnames, ?_, ?_⟩
  · rw [hnames]
    exact nodup_firstSeenDedup (libs.map Prod.snd).length _ le_rfl
  · have hlen : (generate_sbom uuids libs).components.length
        = ((generate_sbom uuids libs).components.map Component.name).length :=
      (List.length_map _ _).symm
    rw [hlen, hnames, length_firstSeenDedup (libs.map Prod.snd).length _ le_rfl]

/-- C3: for every stage, `extract_code_from_robot_release` produces exactly
one file per code block, named `<stage>_<i>.<ext>` with 1-based index `i`
in match order and content the trimmed source block; a stage with no code
blocks produces no files; and the stage `"Main"` with a `csharp` language
tag and code blocks `"A"`, `"B"` yields `Main_1.cs` = `"A"` and
`Main_2.cs` = `"B"`. -/
theorem spec_c3 (attr : Option String) (ser : List Char) :
    (stage_files attr ser).length = (code_blocks ser).length ∧
    (code_blocks ser = [] → stage_files attr ser = []) ∧
    (∀ i : Nat, (stage_files attr ser)[i]? =
      ((code_blocks ser)[i]?).map (fun code =>
        (stage_name attr ++ "_" ++ Nat.repr (i + 1) ++ "." ++ file_extension ser,
         String.mk (pyStrip code)))) ∧
    stage_files (some "Main")
      "<ns0:language>csharp</ns0:language><ns0:code>A</ns0:code><ns0:code>B</ns0:code>".toList
      = [("Main_1.cs", "A"), ("Main_2.cs", "B")] := by
  refine ⟨?_, ?_, ?_, by decide⟩
  · simp [stage_files]
  · intro h
    simp [stage_files, h, List.enumFrom]
  · intro i
    simp only [stage_files, List.getElem?_map, enumFrom_getElem?]
    cases h : (code_blocks ser)[i]? with
    | none => rfl
    | some c => simp [Nat.add_comm]

theorem spec_c3_witness : stage_files none "x".toList = [] :=
  (spec_c3 none "x".toList).2.1 (by decide)

/-- C4: the language-to-extension mapping is exact and case-insensitive:
a language lowercasing to `csharp` maps to `cs`, `powershell` to `ps1`,
`visualbasic` to `vb`, and anything else — including the default
`"unknown"` — maps to `txt`. -/
theorem spec_c4 (lang : String) :
    (pyLowerStr lang = "csharp" → extension_map_get lang = "cs") ∧
    (pyLowerStr lang = "powershell" → extension_map_get lang = "ps1") ∧
    (pyLowerStr lang = "visualbasic" → extension_map_get lang = "vb") ∧
    (pyLowerStr lang ≠ "csharp" → pyLowerStr lang ≠ "powershell" →
      pyLowerStr lang ≠ "visualbasic" → extension_map_get lang = "txt") ∧
    extension_map_get "unknown" = "txt" := by
  refine ⟨?_, ?_, ?_, ?_, by decide⟩
  · intro h; simp only [extension_map_get]; rw [h]; decide
  · intro h; simp only [extension_map_get]; rw [h]; decide
  · intro h; simp only [extension_map_get]; rw [h]; decide
  · intro h1 h2 h3
    have b1 : (pyLowerStr lang == "csharp") = false := beq_eq_false_iff_ne.mpr h1
    have b2 : (pyLowerStr lang == "powershell") = false := beq_eq_false_iff_ne.mpr h2
    have b3 : (pyLowerStr lang == "visualbasic") = false := beq_eq_false_iff_ne.mpr h3
    simp [extension_map_get, extension_map, List.lookup, b1, b2, b3]

theorem spec_c4_witness :
    extension_map_get "CSharp" = "cs" ∧ extension_map_get "PowerShell" = "ps1" ∧
    extension_map_get "VisualBasic" = "vb" ∧ extension_map_get "Ruby" = "txt" ∧
    extension_map_get "unknown" = "txt" :=
  ⟨(spec_c4 "CSharp").1 (by decide),
   (spec_c4 "PowerShell").2.1 (by decide),
   (spec_c4 "VisualBasic").2.2.1 (by decide),
   (spec_c4 "Ruby").2.2.2.1 (by decide) (by decide) (by decide),
   (spec_c4 "Ruby").2.2.2.2⟩

/-- C7: code extraction is idempotent — replaying the write list produced
by `extract_code_from_robot_release` a second time over the resulting file
store leaves every file with exactly the content the first run wrote. -/
theorem spec_c7 (stages : List Stage) (fs : String → Option String) :
    applyWrites (applyWrites fs (code_writes stages)) (code_writes stages)
      = applyWrites fs (code_writes stages) := by
  funext n
  rw [applyWrites_lookup, applyWrites_lookup]
  cases h : lastWrite n (code_writes stages) with
  | some c => rfl
  | none => rfl

/-- C8: a parse error of the input document propagates unchanged out of
`extract_code_from_robot_release` (no recovery), whereas a missing stage
`name` attribute behaves exactly as the placeholder name `UnnamedStage`
and a missing language element yields the `txt` extension. -/
theorem spec_c8 (e : String) (ser : List Char) :
    extract_code_from_robot_release (Except.error e) = Except.error e ∧
    stage_files none ser = stage_files (some "UnnamedStage") ser ∧
    (searchLang ser = none → file_extension ser = "txt") := by
  refine ⟨rfl, rfl, ?_⟩
  intro h
  simp only [file_extension, language_of, h]
  decide

theorem spec_c8_witness :
    extract_code_from_robot_release (Except.error "boom") = Except.error "boom" ∧
    file_extension "x".toList = "txt" :=
  ⟨(spec_c8 "boom" "x".toList).1, (spec_c8 "boom" "x".toList).2.2 (by decide)⟩

/-- C2: `extract_text_between_tags` returns all reference matches first,
in document order, then all import matches, in document order; every
returned pair carries one of the two kinds, names are the trimmed tag
contents, matching spans multi-line content, and duplicates are all
returned (no deduplication). -/
theorem spec_c2 (content : List Char) :
    (∀ p ∈ extract_text_between_tags content, p.1 = "reference" ∨ p.1 = "import") ∧
    ((extract_text_between_tags content).filter (fun p => p.1 == "reference")).map Prod.snd
      = (findallBetween "<reference>".toList "</reference>".toList content).map
          (fun m => String.mk (pyStrip m)) ∧
    ((extract_text_between_tags content).filter (fun p => p.1 == "import")).map Prod.snd
      = (findallBetween "<import>".toList "</import>".toList content).map
          (fun m => String.mk (pyStrip m)) ∧
    extract_text_between_tags content
      = (extract_text_between_tags content).filter (fun p => p.1 == "reference")
        ++ (extract_text_between_tags content).filter (fun p => p.1 == "import") ∧
    extract_text_between_tags
      "<reference>x\ny</reference>j<reference> x\ny </reference><import>z</import>".toList
      = [("reference", "x\ny"), ("reference", "x\ny"), ("import", "z")] := by
  have h1 : (("reference" : String) == "reference") = true := by decide
  have h2 : (("import" : String) == "reference") = false := by decide
  have h3 : (("import" : String) == "import") = true := by decide
  have h4 : (("reference" : String) == "import") = false := by decide
  refine ⟨?_, ?_, ?_, ?_, by decide⟩
  · intro p hp
    simp only [extract_text_between_tags, List.mem_append, List.mem_map] at hp
    rcases hp with ⟨m, _, rfl⟩ | ⟨m, _, rfl⟩
    · exact Or.inl rfl
    · exact Or.inr rfl
  · simp [extract_text_between_tags, List.filter_append, List.filter_map,
      Function.comp_def, h1, h2, List.map_map]
  · simp [extract_text_between_tags, List.filter_append, List.filter_map,
      Function.comp_def, h3, h4, List.map_map]
  · simp [extract_text_between_tags, List.filter_append, List.filter_map,
      Function.comp_def, h1, h2, h3, h4]

theorem spec_c2_witness :
    (("reference", "x\ny") : String × String).1 = "reference" ∨
      (("reference", "x\ny") : String × String).1 = "import" :=
  (spec_c2
      "<reference>x\ny</reference>j<reference> x\ny </reference><import>z</import>".toList).1
    ("reference", "x\ny") (by decide)

/-- C5: the generated SBOM has exactly the top-level fields
`bomFormat = "CycloneDX"`, `specVersion = "1.4"`, `version = 1` and
`components`; every component carries a non-empty `bom-ref` (given a
uuid supply of non-empty strings), a name drawn from the input libraries,
version `"unknown"`, purl `pkg:generic/<name>@unknown`, empty hash and
license lists and supplier name `"unknown"`. -/
theorem spec_c5 (uuids : Nat → String) (libs : List (String × String))
    (huuid : ∀ k, uuids k ≠ "") :
    (generate_sbom uuids libs).bomFormat = "CycloneDX" ∧
    (generate_sbom uuids libs).specVersion = "1.4" ∧
    (generate_sbom uuids libs).version = 1 ∧
    ∀ c ∈ (generate_sbom uuids libs).components,
      c.bomRef ≠ "" ∧ c.name ∈ libs.map Prod.snd ∧ c.version = "unknown" ∧
      c.purl = "pkg:generic/" ++ c.name ++ "@unknown" ∧
      c.hashes = [] ∧ c.licenses = [] ∧ c.supplier = ⟨"unknown"⟩ := by
  have key : ∀ (l : List (String × String)) (seen : List String) (k : Nat)
      (c : Component), c ∈ sbomComponents uuids l seen k →
      (∃ j, c.bomRef = uuids j) ∧ c.name ∈ l.map Prod.snd ∧ c.version = "unknown" ∧
      c.purl = "pkg:generic/" ++ c.name ++ "@unknown" ∧
      c.hashes = [] ∧ c.licenses = [] ∧ c.supplier = ⟨"unknown"⟩ := by
    intro l
    induction l with
    | nil => intro seen k c h; simp [sbomComponents] at h
    | cons p rest ih =>
      intro seen k c h
      obtain ⟨ty, nm⟩ := p
      simp only [sbomComponents] at h
      by_cases hm : nm ∈ seen
      · rw [if_pos hm] at h
        obtain ⟨hj, hn, hrest⟩ := ih seen k c h
        exact ⟨hj, by simpa using Or.inr hn, hrest⟩
      · rw [if_neg hm] at h
        rcases List.mem_cons.mp h with hc | hc
        · subst hc
          exact ⟨⟨k, rfl⟩, by simp, rfl, rfl, rfl, rfl, rfl⟩
        · obtain ⟨hj, hn, hrest⟩ := ih (nm :: seen) (k + 1) c hc
          exact ⟨hj, by simpa using Or.inr hn, hrest⟩
  refine ⟨rfl, rfl, rfl, ?_⟩
  intro c hc
  obtain ⟨⟨j, hj⟩, hrest⟩ := key libs [] 0 c hc
  exact ⟨hj ▸ huuid j, hrest⟩

theorem spec_c5_witness :
    (generate_sbom (fun _ => "id-0") [("reference", "LibA")]).bomFormat = "CycloneDX" :=
  (spec_c5 (fun _ => "id-0") [("reference", "LibA")]
    (fun _ => by show ("id-0" : String) ≠ ""; decide)).1

/-- C6 counterexample: `generate_sbom` draws a fresh uuid for every
component, so two invocations on the same input sequence whose uuid draws
differ produce different SBOM documents — the result is not determined by
the input sequence alone. -/
theorem spec_c6_counterexample :
    generate_sbom (fun _ => "a") [("reference", "A")]
      ≠ generate_sbom (fun _ => "b") [("reference", "A")] := by decide

/-- C6 (amended): `generate_sbom` is free of I/O apart from the uuid
draws; its result is a pure function of the input sequence and the drawn
uuids, and two invocations on the same input sequence agree on the whole
document except the generated `bom-ref` fields. -/
theorem spec_c6 (u1 u2 : Nat → String) (libs : List (String × String)) :
    stripBomRefs (generate_sbom u1 libs) = stripBomRefs (generate_sbom u2 libs) := by
  have key : ∀ (l : List (String × String)) (seen : List String) (k1 k2 : Nat),
      (sbomComponents u1 l seen k1).map eraseBomRef
        = (sbomComponents u2 l seen k2).map eraseBomRef := by
    intro l
    induction l with
    | nil => intro seen k1 k2; rfl
    | cons p rest ih =>
      intro seen k1 k2
      obtain ⟨ty, nm⟩ := p
      simp only [sbomComponents]
      by_cases hm : nm ∈ seen
      · rw [if_pos hm, if_pos hm]; exact ih seen k1 k2
      · rw [if_neg hm, if_neg hm]
        simp only [List.map_cons, eraseBomRef]
        rw [ih (nm :: seen) (k1 + 1) (k2 + 1)]
  exact congrArg (SBOM.mk "CycloneDX" "1.4" 1) (key libs [] 0 0)

theorem isPrefixOf_append_self : ∀ (l r : List Char), l.isPrefixOf (l ++ r) = true := by
  intro l r
  induction l with
  | nil => simp [List.isPrefixOf]
  | cons c t ih => simp [List.isPrefixOf, ih]

theorem splitAtFirst_append (p0 : Char) (ps : List Char) :
    ∀ (c b : List Char), (∀ ch ∈ c, ch ≠ p0) →
      splitAtFirst (p0 :: ps) (c ++ (p0 :: ps) ++ b) = some (c, b) := by
  intro c
  induction c with
  | nil =>
    intro b _
    have hpre : (p0 :: ps).isPrefixOf (p0 :: (ps ++ b)) = true :=
      isPrefixOf_append_self (p0 :: ps) b
    have h1 : ([] : List Char) ++ (p0 :: ps) ++ b = p0 :: (ps ++ b) := by simp
    rw [h1]
    simp only [splitAtFirst]
    rw [if_pos hpre]
    have hdrop : (p0 :: (ps ++ b)).drop (p0 :: ps).length = b := by
      simp [List.length_cons, List.drop_succ_cons, List.drop_left]
    rw [hdrop]
  | cons d c' ih =>
    intro b hc
    have hd : d ≠ p0 := hc d (List.mem_cons_self _ _)
    have h1 : (d :: c') ++ (p0 :: ps) ++ b = d :: (c' ++ (p0 :: ps) ++ b) := by simp
    rw [h1]
    simp only [splitAtFirst]
    rw [if_neg (by simp [List.isPrefixOf, Ne.symm hd])]
    rw [ih b (fun ch h => hc ch (List.mem_cons_of_mem _ h))]

theorem countOccur_pos (o : Char) (os : List Char) : ∀ (x y : List Char),
    1 ≤ countOccur (o :: os) (x ++ (o :: os) ++ y) := by
  intro x
  induction x with
  | nil =>
    intro y
    have h1 : ([] : List Char) ++ (o :: os) ++ y = o :: (os ++ y) := by simp
    rw [h1]
    simp only [countOccur]
    rw [if_pos (show (o :: os).isPrefixOf (o :: (os ++ y)) = true from
      isPrefixOf_append_self (o :: os) y)]
    omega
  | cons d x' ih =>
    intro y
    have h1 : countOccur (o :: os) ((d :: x') ++ (o :: os) ++ y)
        = (if (o :: os).isPrefixOf (d :: (x' ++ (o :: os) ++ y)) then 1 else 0)
          + countOccur (o :: os) (x' ++ (o :: os) ++ y) := rfl
    rw [h1]
    have := ih y
    split <;> omega

theorem searchBetween_eq_none_of_countZero (o : Char) (os ct : List Char) :
    ∀ (l : List Char), countOccur (o :: os) l = 0 → searchBetween (o :: os) ct l = none := by
  intro l
  induction l with
  | nil => intro _; rfl
  | cons c t ih =>
    intro h
    simp only [countOccur] at h
    have hpre : ¬ ((o :: os).isPrefixOf (c :: t) = true) := by
      intro hp
      rw [if_pos hp] at h
      omega
    have ht : countOccur (o :: os) t = 0 := by
      rw [if_neg hpre] at h
      omega
    simp only [searchBetween]
    rw [if_neg hpre]
    exact ih ht

theorem searchBetween_none_of_single_multiline
    (o : Char) (os : List Char) (c0 : Char) (cs : List Char) :
    ∀ (a c b : List Char), '\n' ∈ c → (∀ ch ∈ c, ch ≠ c0) →
      countOccur (o :: os) (a ++ (o :: os) ++ (c ++ (c0 :: cs) ++ b)) = 1 →
      searchBetween (o :: os) (c0 :: cs) (a ++ (o :: os) ++ (c ++ (c0 :: cs) ++ b))
        = none := by
  intro a
  induction a with
  | nil =>
    intro c b hnl hc hcount
    simp only [List.nil_append, List.cons_append] at hcount ⊢
    have hpre : (o :: os).isPrefixOf (o :: (os ++ (c ++ (c0 :: cs) ++ b))) = true := by
      rw [← List.cons_append]
      exact isPrefixOf_append_self (o :: os) _
    have hdrop : (o :: (os ++ (c ++ (c0 :: cs) ++ b))).drop (o :: os).length
        = c ++ (c0 :: cs) ++ b := by
      simp [List.length_cons, List.drop_succ_cons, List.drop_left]
    simp only [searchBetween]
    rw [if_pos hpre, hdrop, splitAtFirst_append c0 cs c b hc]
    have hcontains : c.contains '\n' = true := List.elem_eq_true_of_mem hnl
    dsimp only
    rw [if_pos hcontains]
    apply searchBetween_eq_none_of_countZero
    simp only [countOccur] at hcount
    rw [if_pos hpre] at hcount
    omega
  | cons a0 a' ih =>
    intro c b hnl hc hcount
    simp only [List.cons_append] at hcount ⊢
    by_cases hp : (o :: os).isPrefixOf
        (a0 :: (a' ++ (o :: os) ++ (c ++ (c0 :: cs) ++ b))) = true
    · exfalso
      have hrest := countOccur_pos o os a' (c ++ (c0 :: cs) ++ b)
      simp only [countOccur, List.cons_append] at hcount hrest
      rw [if_pos hp] at hcount
      omega
    · have hstep : searchBetween (o :: os) (c0 :: cs)
          (a0 :: (a' ++ (o :: os) ++ (c ++ (c0 :: cs) ++ b)))
          = searchBetween (o :: os) (c0 :: cs)
            (a' ++ (o :: os) ++ (c ++ (c0 :: cs) ++ b)) := by
        simp only [searchBetween]
        rw [if_neg hp]
      have hcount' : countOccur (o :: os) (a' ++ (o :: os) ++ (c ++ (c0 :: cs) ++ b)) = 1 := by
        simp only [countOccur, List.cons_append] at hcount
        rw [if_neg hp] at hcount
        omega
      have := ih c b hnl hc hcount'
      simp only [List.cons_append] at hstep this
      rw [hstep]
      exact this

/-- C9: the language regular expression is matched without `re.DOTALL`, so
a stage whose single serialized language element carries content spanning
a line break is classified as `"unknown"` and its fragments get extension
`txt`, even though code-block matching (same function) and tag matching
(dependency collector) do span multiple lines. -/
theorem spec_c9 (a c b : List Char)
    (hnl : '\n' ∈ c) (hlt : ∀ ch ∈ c, ch ≠ '<')
    (hcount : countOccur "<ns0:language>".toList
        (a ++ "<ns0:language>".toList ++ (c ++ "</ns0:language>".toList ++ b)) = 1) :
    (searchLang (a ++ "<ns0:language>".toList ++ (c ++ "</ns0:language>".toList ++ b))
        = none ∧
      language_of (a ++ "<ns0:language>".toList ++ (c ++ "</ns0:language>".toList ++ b))
        = "unknown" ∧
      file_extension (a ++ "<ns0:language>".toList ++ (c ++ "</ns0:language>".toList ++ b))
        = "txt") ∧
    code_blocks "<ns0:code>A\nB</ns0:code>".toList = ["A\nB".toList] ∧
    findallBetween "<reference>".toList "</reference>".toList
        "<reference>X\nY</reference>".toList
      = ["X\nY".toList] := by
  have hsearch : searchLang
      (a ++ "<ns0:language>".toList ++ (c ++ "</ns0:language>".toList ++ b)) = none :=
    searchBetween_none_of_single_multiline '<' "ns0:language>".toList
      '<' "/ns0:language>".toList a c b hnl hlt hcount
  refine ⟨⟨hsearch, ?_, ?_⟩, by decide, by decide⟩
  · simp only [language_of]
    rw [hsearch]
  · simp only [file_extension, language_of]
    rw [hsearch]
    decide

theorem spec_c9_witness :
    searchLang (([] : List Char) ++ "<ns0:language>".toList
        ++ ("c\nsharp".toList ++ "</ns0:language>".toList ++ ([] : List Char))) = none :=
  ((spec_c9 [] "c\nsharp".toList [] (by decide) (by decide) (by decide)).1).1

/-- C10: the dependency collector is purely textual — a reference tag
inside an XML comment and an import tag inside an embedded code block are
still collected by `extract_text_between_tags`. -/
theorem spec_c10 :
    extract_text_between_tags
      "<!--<reference>Evil</reference>--><ns0:code><import>Hidden</import></ns0:code>".toList
      = [("reference", "Evil"), ("import", "Hidden")] := by decide
